import Mathlib

/-!
Verification of the tumblr-scraper core against its specification.

The Go source is shallowly embedded: strings are lists of characters,
64-bit integers are `Int` with the explicit bounds used by the code,
stateful loops become recursive functions over explicit state, and
filesystem or network effects become explicit event traces and
environment parameters.
-/

namespace TumblrScraper

/-- Strings from the Go source, modelled as lists of characters. -/
abbrev Str := List Char

/-- Conversion from Lean string literals, used to transcribe Go literals. -/
def strOf (s : String) : Str := s.toList

/-! ## URL fixup (scraper.go, fixupURL)

`videoURLFixupRegexp  = _(?:480|720)\.mp4$`
`imageSizeFixupRegexp = _(?:\d+)\.([a-z]+)$`

Both patterns are end-anchored, so `ReplaceAllString` replaces at most one
match.  `Char.isDigit` and `Char.isLower` coincide with the ASCII classes
`\d` and `[a-z]` used by the RE2 patterns.
-/

/-- Removes the last `n` characters. -/
def dropSuffixN (n : Nat) (s : Str) : Str := s.take (s.length - n)

/-- `videoURLFixupRegexp.ReplaceAllString(url, ".mp4")`: the pattern is
end-anchored with fixed length 8, so the only possible match is the
8-character suffix `_480.mp4` or `_720.mp4`, replaced by `.mp4`. -/
def videoFixup (s : Str) : Str :=
  if strOf "_480.mp4" <:+ s ∨ strOf "_720.mp4" <:+ s then
    dropSuffixN 8 s ++ strOf ".mp4"
  else s

/-- Match of the tail of `imageSizeFixupRegexp` after the `_`: one or more
digits, a dot, then one or more lowercase letters reaching the end of the
string.  The digit run is maximal because the following `.` is not a digit.
Returns the captured extension. -/
def extAfterDigits (l : Str) : Option Str :=
  let ds := l.takeWhile Char.isDigit
  match l.dropWhile Char.isDigit with
  | c :: ext =>
    if c = '.' && !ds.isEmpty && !ext.isEmpty && ext.all Char.isLower then some ext
    else none
  | _ => none

/-- `imageSizeFixupRegexp.ReplaceAllString(url, "_1280.$1")`: scan for the
leftmost `_` from which the rest of the string matches the pattern, and
replace the matched suffix by `_1280.` followed by the captured extension.
Returns `none` when the pattern has no match. -/
def imageFixup : Str → Option Str
  | [] => none
  | c :: cs =>
    if c = '_' then
      match extAfterDigits cs with
      | some ext => some (strOf "_1280." ++ ext)
      | none => (imageFixup cs).map (fun r => c :: r)
    else (imageFixup cs).map (fun r => c :: r)

/-- `fixupURL` (scraper.go lines 726-732): URLs ending in `.mp4` take the
video rewrite, every other URL takes the image rewrite. -/
def fixupURL (s : Str) : Str :=
  if strOf ".mp4" <:+ s then videoFixup s
  else (imageFixup s).getD s

/-- The decomposition required by the image rule of the specification:
`s = p ++ "_" ++ D ++ "." ++ L` with `D` a nonempty digit run and `L` a
nonempty lowercase-letter extension ending the string. -/
def IsImageForm (s p D L : Str) : Prop :=
  s = p ++ '_' :: (D ++ '.' :: L) ∧
    D ≠ [] ∧ D.all Char.isDigit ∧ L ≠ [] ∧ L.all Char.isLower


lemma ne_nil_of_isEmpty_false {l : Str} (h : l.isEmpty = false) : l ≠ [] := by
  cases l <;> simp_all

lemma takeWhile_append_sep {q : Char → Bool} {x : Char} (hx : q x = false) :
    ∀ (D r : Str), D.all q = true →
      (D ++ x :: r).takeWhile q = D ∧ (D ++ x :: r).dropWhile q = x :: r := by
  intro D
  induction D with
  | nil => intro r _; simp [List.takeWhile_cons, List.dropWhile_cons, hx]
  | cons a D ih =>
    intro r h
    simp only [List.all_cons, Bool.and_eq_true] at h
    obtain ⟨ha, hD⟩ := h
    have := ih r hD
    simp [List.takeWhile_cons, List.dropWhile_cons, ha, this.1, this.2]

lemma extAfterDigits_of_form {D ext : Str} (hD : D ≠ []) (hDd : D.all Char.isDigit = true)
    (hE : ext ≠ []) (hEl : ext.all Char.isLower = true) :
    extAfterDigits (D ++ '.' :: ext) = some ext := by
  have hdot : Char.isDigit '.' = false := by decide
  have h := takeWhile_append_sep hdot D ext hDd
  simp [extAfterDigits, h.1, h.2, hD, hE, hEl, List.isEmpty_iff]

lemma extAfterDigits_sound {l ext : Str} (h : extAfterDigits l = some ext) :
    ∃ D, l = D ++ '.' :: ext ∧ D ≠ [] ∧ D.all Char.isDigit = true ∧
      ext ≠ [] ∧ ext.all Char.isLower = true := by
  unfold extAfterDigits at h
  cases hdrop : l.dropWhile Char.isDigit with
  | nil => rw [hdrop] at h; exact absurd h (by simp)
  | cons c rest =>
    rw [hdrop] at h
    simp only at h
    split at h
    · rename_i hcond
      simp only [Bool.and_eq_true, Bool.not_eq_true', decide_eq_true_eq] at hcond
      obtain ⟨⟨⟨hc, h1⟩, h2⟩, h3⟩ := hcond
      subst hc
      obtain rfl : rest = ext := by injection h
      refine ⟨l.takeWhile Char.isDigit, ?_, ne_nil_of_isEmpty_false h1, ?_,
        ne_nil_of_isEmpty_false h2, h3⟩
      · conv_lhs => rw [← @List.takeWhile_append_dropWhile _ Char.isDigit l]
        rw [hdrop]
      · have hmem : ∀ x ∈ l.takeWhile Char.isDigit, Char.isDigit x = true := by
          intro x hx; exact List.mem_takeWhile_imp hx
        exact List.all_eq_true.mpr hmem
    · exact absurd h (by simp)

lemma imageFixup_sound : ∀ {s r : Str}, imageFixup s = some r →
    ∃ p D L, IsImageForm s p D L ∧ r = p ++ strOf "_1280." ++ L := by
  intro s
  induction s with
  | nil => intro r h; exact absurd h (by simp [imageFixup])
  | cons c cs ih =>
    intro r h
    unfold imageFixup at h
    by_cases hc : c = '_'
    · rw [if_pos hc] at h
      cases hext : extAfterDigits cs with
      | some ext =>
        rw [hext] at h
        obtain rfl : strOf "_1280." ++ ext = r := by injection h
        obtain ⟨D, hcs, hD, hDd, hE, hEl⟩ := extAfterDigits_sound hext
        exact ⟨[], D, ext, ⟨by simp [hcs, hc], hD, hDd, hE, hEl⟩, by simp⟩
      | none =>
        rw [hext] at h
        simp only [Option.map_eq_some'] at h
        obtain ⟨r0, hr0, rfl⟩ := h
        obtain ⟨p, D, L, hform, rfl⟩ := ih hr0
        exact ⟨c :: p, D, L, ⟨by rw [hform.1]; simp, hform.2⟩, by simp⟩
    · rw [if_neg hc] at h
      simp only [Option.map_eq_some'] at h
      obtain ⟨r0, hr0, rfl⟩ := h
      obtain ⟨p, D, L, hform, rfl⟩ := ih hr0
      exact ⟨c :: p, D, L, ⟨by rw [hform.1]; simp, hform.2⟩, by simp⟩

lemma imageFixup_complete : ∀ {p s D L : Str}, IsImageForm s p D L →
    ∃ r, imageFixup s = some r := by
  intro p
  induction p with
  | nil =>
    intro s D L hform
    obtain ⟨hs, hD, hDd, hE, hEl⟩ := hform
    simp only [List.nil_append] at hs
    subst hs
    unfold imageFixup
    rw [if_pos rfl, extAfterDigits_of_form hD hDd hE hEl]
    exact ⟨_, rfl⟩
  | cons a p ih =>
    intro s D L hform
    obtain ⟨hs, hD, hDd, hE, hEl⟩ := hform
    subst hs
    have htail : IsImageForm (p ++ '_' :: (D ++ '.' :: L)) p D L :=
      ⟨rfl, hD, hDd, hE, hEl⟩
    obtain ⟨r0, hr0⟩ := ih htail
    show ∃ r, imageFixup (a :: (p ++ '_' :: (D ++ '.' :: L))) = some r
    unfold imageFixup
    by_cases ha : a = '_'
    · rw [if_pos ha]
      cases hext : extAfterDigits (p ++ '_' :: (D ++ '.' :: L)) with
      | some ext => exact ⟨_, rfl⟩
      | none => rw [hr0]; exact ⟨_, rfl⟩
    · rw [if_neg ha, hr0]; exact ⟨_, rfl⟩


lemma sep_split_unique {q : Char → Bool} {sep : Char} (hsep : q sep = false) :
    ∀ {X1 : Str} {Y1 X2 Y2 : Str}, X1.all q = true → X2.all q = true →
      X1 ++ sep :: Y1 = X2 ++ sep :: Y2 → X1 = X2 ∧ Y1 = Y2 := by
  intro X1
  induction X1 with
  | nil =>
    intro Y1 X2 Y2 _ h2 he
    cases X2 with
    | nil => simpa using he
    | cons b X2 =>
      simp only [List.nil_append, List.cons_append, List.cons.injEq] at he
      obtain ⟨rfl, _⟩ := he
      simp only [List.all_cons, Bool.and_eq_true] at h2
      exact absurd h2.1 (by simp [hsep])
  | cons a X1 ih =>
    intro Y1 X2 Y2 h1 h2 he
    cases X2 with
    | nil =>
      simp only [List.cons_append, List.nil_append, List.cons.injEq] at he
      obtain ⟨rfl, _⟩ := he
      simp only [List.all_cons, Bool.and_eq_true] at h1
      exact absurd h1.1 (by simp [hsep])
    | cons b X2 =>
      simp only [List.cons_append, List.cons.injEq] at he
      obtain ⟨rfl, he⟩ := he
      simp only [List.all_cons, Bool.and_eq_true] at h1 h2
      obtain ⟨hX, hY⟩ := ih h1.2 h2.2 he
      exact ⟨by rw [hX], hY⟩

lemma all_reverse_str {q : Char → Bool} {l : Str} (h : l.all q = true) :
    l.reverse.all q = true := by
  simp only [List.all_eq_true] at h ⊢
  intro x hx
  exact h x (List.mem_reverse.mp hx)

lemma imageForm_unique {s p1 D1 L1 p2 D2 L2 : Str}
    (h1 : IsImageForm s p1 D1 L1) (h2 : IsImageForm s p2 D2 L2) :
    p1 = p2 ∧ D1 = D2 ∧ L1 = L2 := by
  obtain ⟨hs1, hD1, hDd1, hL1, hLl1⟩ := h1
  obtain ⟨hs2, hD2, hDd2, hL2, hLl2⟩ := h2
  have hrev : L1.reverse ++ '.' :: (D1.reverse ++ '_' :: p1.reverse) =
      L2.reverse ++ '.' :: (D2.reverse ++ '_' :: p2.reverse) := by
    have he : p1 ++ '_' :: (D1 ++ '.' :: L1) = p2 ++ '_' :: (D2 ++ '.' :: L2) :=
      hs1.symm.trans hs2
    have := congrArg List.reverse he
    simpa [List.reverse_append, List.append_assoc] using this
  have hdotlow : Char.isLower '.' = false := by decide
  have step1 := sep_split_unique hdotlow (all_reverse_str hLl1) (all_reverse_str hLl2) hrev
  have hL : L1 = L2 := List.reverse_injective step1.1
  have hunder : Char.isDigit '_' = false := by decide
  have step2 := sep_split_unique hunder (all_reverse_str hDd1) (all_reverse_str hDd2) step1.2
  have hD : D1 = D2 := List.reverse_injective step2.1
  have hp : p1 = p2 := List.reverse_injective step2.2
  exact ⟨hp, hD, hL⟩

/-- C9: for every source URL, the URL-upgrade rewrite yields: if the URL ends
in `.mp4`, the URL with a trailing `_480.mp4` or `_720.mp4` replaced by
`.mp4`; otherwise, if the URL ends in `_<digits>.<ext>` with a nonempty
lowercase-letter extension, that suffix replaced by `_1280.<ext>`; otherwise
the URL unchanged. -/
theorem fixupURL_upgrade_rules (s : Str) :
    (strOf ".mp4" <:+ s →
      (∀ p, (s = p ++ strOf "_480.mp4" ∨ s = p ++ strOf "_720.mp4") →
        fixupURL s = p ++ strOf ".mp4") ∧
      ((¬ ∃ p, s = p ++ strOf "_480.mp4" ∨ s = p ++ strOf "_720.mp4") →
        fixupURL s = s)) ∧
    (¬ (strOf ".mp4" <:+ s) →
      (∀ p D L, IsImageForm s p D L → fixupURL s = p ++ strOf "_1280." ++ L) ∧
      ((¬ ∃ p D L, IsImageForm s p D L) → fixupURL s = s)) := by
  constructor
  · intro hmp4
    constructor
    · rintro p (h | h) <;>
      · subst h
        rw [fixupURL, if_pos hmp4, videoFixup, if_pos]
        · rw [dropSuffixN]
          simp [strOf]
        · first
          | exact Or.inl ⟨p, rfl⟩
          | exact Or.inr ⟨p, rfl⟩
    · intro hno
      rw [fixupURL, if_pos hmp4, videoFixup, if_neg]
      rintro (⟨t, ht⟩ | ⟨t, ht⟩)
      · exact hno ⟨t, Or.inl ht.symm⟩
      · exact hno ⟨t, Or.inr ht.symm⟩
  · intro hnot
    constructor
    · intro p D L hform
      obtain ⟨r, hr⟩ := imageFixup_complete hform
      obtain ⟨p2, D2, L2, hform2, rfl⟩ := imageFixup_sound hr
      obtain ⟨hp, hD, hL⟩ := imageForm_unique hform2 hform
      rw [fixupURL, if_neg hnot, hr, Option.getD_some, hp, hL]
    · intro hnoform
      cases hr : imageFixup s with
      | none => rw [fixupURL, if_neg hnot, hr, Option.getD_none]
      | some r =>
        obtain ⟨p, D, L, hform, _⟩ := imageFixup_sound hr
        exact absurd ⟨p, D, L, hform⟩ hnoform

/-- Witness for C9 at a concrete image URL and a concrete video URL. -/
theorem fixupURL_upgrade_rules_witness :
    fixupURL (strOf "https://a.media.tumblr.com/tumblr_x_500.jpg") =
      strOf "https://a.media.tumblr.com/tumblr_x" ++ strOf "_1280." ++ strOf "jpg" := by
  have h := (fixupURL_upgrade_rules (strOf "https://a.media.tumblr.com/tumblr_x_500.jpg")).2
    (by decide)
  exact h.1 (strOf "https://a.media.tumblr.com/tumblr_x") (strOf "500") (strOf "jpg")
    ⟨by decide, by decide, by decide, by decide, by decide⟩


/-! ## Fetch state machine (scraper.go, scrapeContextState and scrapeBlogMaybe)

`scrapeContextStateTryUseAPI` is the TRY_PUBLIC state of the specification,
`scrapeContextStateUseAPI` is PUBLIC, `scrapeContextStateTryUseIndashAPI` is
the trial state for the authenticated endpoint, and
`scrapeContextStateUseIndashAPI` is AUTHENTICATED.
-/

inductive ScrapeState where
  | tryUseAPI
  | useAPI
  | tryUseIndashAPI
  | useIndashAPI
deriving DecidableEq, Repr

inductive FetchOutcome where
  | retry (next : ScrapeState) (loginInvoked : Bool)
  | success (next : ScrapeState)
  | failure (status : Nat)
deriving DecidableEq, Repr

/-- Status handling of `scrapeBlogMaybe` (scraper.go lines 364-396), with the
login collaborator modelled as succeeding and JSON decoding as out of scope.
`hasUsername` is `len(sc.scraper.config.Username) != 0`.  A `retry` outcome
is the `return nil, nil` that makes `scrapeBlog` call again. -/
def scrapeBlogMaybeStep (state : ScrapeState) (status : Nat) (hasUsername : Bool) :
    FetchOutcome :=
  if status ≠ 200 then
    if state = .tryUseAPI ∧ status = 404 ∧ hasUsername = true then
      .retry .tryUseIndashAPI false
    else if state = .tryUseIndashAPI ∧ status ≠ 404 then
      .retry .useIndashAPI true
    else
      .failure status
  else
    if state = .tryUseAPI then .success .useAPI else .success state

/-- The state after an outcome, `cur` being the state the fetch started in
(a `failure` aborts the scrape without touching the state). -/
def stateAfter (o : FetchOutcome) (cur : ScrapeState) : ScrapeState :=
  match o with
  | .retry next _ => next
  | .success next => next
  | .failure _ => cur

/-- C3 counterexample: a 404 in TRY_PUBLIC with credentials configured does
not invoke the login collaborator and does not set the state to
AUTHENTICATED; it moves to the trial state `tryUseIndashAPI` with no login. -/
theorem fetch404_no_login_counterexample :
    scrapeBlogMaybeStep .tryUseAPI 404 true ≠ .retry .useIndashAPI true ∧
    scrapeBlogMaybeStep .tryUseAPI 404 true = .retry .tryUseIndashAPI false := by
  decide

/-- C3 amended: a 404 in TRY_PUBLIC with credentials configured moves the
state to `tryUseIndashAPI` without logging in and retries; the login
collaborator is invoked (single-shot), with the state set to AUTHENTICATED,
only when a fetch in `tryUseIndashAPI` returns a non-200, non-404 status;
and once the state is PUBLIC or AUTHENTICATED it never changes again. -/
theorem fetch_state_machine_transitions :
    scrapeBlogMaybeStep .tryUseAPI 404 true = .retry .tryUseIndashAPI false ∧
    (∀ status : Nat, status ≠ 200 → status ≠ 404 →
      ∀ u, scrapeBlogMaybeStep .tryUseIndashAPI status u = .retry .useIndashAPI true) ∧
    (∀ status u,
      stateAfter (scrapeBlogMaybeStep .useAPI status u) .useAPI = .useAPI) ∧
    (∀ status u,
      stateAfter (scrapeBlogMaybeStep .useIndashAPI status u) .useIndashAPI = .useIndashAPI) := by
  refine ⟨by decide, ?_, ?_, ?_⟩
  · intro status h200 h404 u
    simp [scrapeBlogMaybeStep, h200, h404]
  · intro status u
    by_cases h : status = 200 <;> simp [scrapeBlogMaybeStep, stateAfter, h]
  · intro status u
    by_cases h : status = 200 <;> simp [scrapeBlogMaybeStep, stateAfter, h]

/-- Witness for the amended C3 theorem at status 500. -/
theorem fetch_state_machine_transitions_witness :
    scrapeBlogMaybeStep .tryUseIndashAPI 500 true = .retry .useIndashAPI true :=
  fetch_state_machine_transitions.2.1 500 (by decide) (by decide) true

/-! ## Initial pagination state (scraper.go, newScrapeContext) -/

/-- `math.MaxInt64`. -/
def maxInt64 : Int := 9223372036854775807

/-- `math.MinInt64`. -/
def minInt64 : Int := -9223372036854775808

structure ScrapeContextInit where
  state : ScrapeState
  offset : Nat
  before : Option Int
  lowestID : Int
  highestID : Int
deriving DecidableEq, Repr

/-- `newScrapeContext` (scraper.go lines 129-173): the pagination state a
scrape starts with.  `stored` is what `database.GetHighestID` returns for the
blog (0 when no entry is stored); `beforeCfg` is `blogConfig.Before` as a
Unix timestamp, `none` when it is the zero time.  The `highestID` field is
initialised to `math.MinInt64` and overwritten from the store only when
`Rescrape` is not set. -/
def newScrapeContext (rescrape : Bool) (stored : Int) (beforeCfg : Option Int) :
    ScrapeContextInit :=
  { state := .tryUseAPI
    offset := 0
    before := beforeCfg
    lowestID := maxInt64
    highestID := if rescrape then minInt64 else stored }

/-- C5 counterexample: with rescrape forced, `highestID` starts at
`math.MinInt64`, not at 0 as the claim states. -/
theorem newScrapeContext_rescrape_counterexample :
    (newScrapeContext true 100 none).highestID = minInt64 ∧ minInt64 ≠ 0 := by
  refine ⟨rfl, by decide⟩

/-- C5 amended: at the start of every scrape the state is TRY_PUBLIC, the
offset is 0, `before` is the configured job bound, `lowestID` is the maximum
int64 value, and `highestID` is the stored high-water mark (0 when absent)
unless rescrape is forced, in which case it is the minimum int64 value. -/
theorem newScrapeContext_initial_state (rescrape : Bool) (stored : Int)
    (beforeCfg : Option Int) :
    (newScrapeContext rescrape stored beforeCfg).state = .tryUseAPI ∧
    (newScrapeContext rescrape stored beforeCfg).offset = 0 ∧
    (newScrapeContext rescrape stored beforeCfg).before = beforeCfg ∧
    (newScrapeContext rescrape stored beforeCfg).lowestID = maxInt64 ∧
    (newScrapeContext true stored beforeCfg).highestID = minInt64 ∧
    (newScrapeContext false stored beforeCfg).highestID = stored := by
  refine ⟨rfl, rfl, rfl, rfl, rfl, rfl⟩

/-! ## Download status classification (scraper.go, downloadFileMaybe and downloadFile) -/

inductive DownloadStep where
  | proceed
  | successEarly
  | notFound
  | failStatus (url : Str) (status : Nat)
deriving DecidableEq, Repr

/-- The status switch of `downloadFileMaybe` (scraper.go lines 600-613):
200 continues below, 403 returns nil (fully deleted media), 404 and 500 both
return `errFileNotFound`, and every other status returns an error carrying
the URL and the status. -/
def classifyDownloadStatus (url : Str) (status : Nat) : DownloadStep :=
  if status = 200 then .proceed
  else if status = 403 then .successEarly
  else if status = 404 then .notFound
  else if status = 500 then .notFound
  else .failStatus url status

inductive DownloadResult where
  | ok
  | failed (url : Str) (status : Nat)
deriving DecidableEq, Repr

/-- `downloadFile` (scraper.go lines 556-576) reduced to its status logic:
`statusOf` is the HTTP status each candidate URL fetches, the target file is
assumed absent, and a `proceed` classification stands for a completed
download.  Returns the final result and the list of attempted URLs. -/
def downloadFileStatuses (statusOf : Str → Nat) (rawurl : Str) :
    DownloadResult × List Str :=
  let optimal := fixupURL rawurl
  match classifyDownloadStatus optimal (statusOf optimal) with
  | .notFound =>
    if optimal ≠ rawurl then
      match classifyDownloadStatus rawurl (statusOf rawurl) with
      | .failStatus u st => (.failed u st, [optimal, rawurl])
      | _ => (.ok, [optimal, rawurl])
    else (.ok, [optimal])
  | .failStatus u st => (.failed u st, [optimal])
  | _ => (.ok, [optimal])

/-- C4 counterexample: HTTP 500 on a download yields the internal not-found
sentinel, not an error carrying the URL and status line as the claim states
for every status other than 200, 403 and 404. -/
theorem download_status_500_counterexample :
    classifyDownloadStatus (strOf "https://x.media.tumblr.com/f.jpg") 500 = .notFound ∧
    classifyDownloadStatus (strOf "https://x.media.tumblr.com/f.jpg") 500 ≠
      .failStatus (strOf "https://x.media.tumblr.com/f.jpg") 500 := by
  refine ⟨rfl, by decide⟩

/-- C4 amended: 200 proceeds, 403 yields success, 404 and 500 both yield the
internal not-found sentinel (which triggers the URL-variant fallback and is
then swallowed), and every other status yields an error carrying the URL and
status. -/
theorem download_status_classification (u : Str) (s : Nat) :
    classifyDownloadStatus u 200 = .proceed ∧
    classifyDownloadStatus u 403 = .successEarly ∧
    classifyDownloadStatus u 404 = .notFound ∧
    classifyDownloadStatus u 500 = .notFound ∧
    (s ≠ 200 → s ≠ 403 → s ≠ 404 → s ≠ 500 →
      classifyDownloadStatus u s = .failStatus u s) ∧
    (∀ statusOf : Str → Nat, statusOf (fixupURL u) = 404 → statusOf u = 404 →
      (downloadFileStatuses statusOf u).1 = .ok) := by
  refine ⟨rfl, rfl, rfl, rfl, ?_, ?_⟩
  · intro h200 h403 h404 h500
    simp [classifyDownloadStatus, h200, h403, h404, h500]
  · intro statusOf hopt hraw
    unfold downloadFileStatuses
    by_cases h : fixupURL u ≠ u
    · simp [hopt, hraw, classifyDownloadStatus, h]
    · simp [hopt, hraw, classifyDownloadStatus, h]

/-- Witness for the amended C4 theorem at status 503 and a concrete URL with
both variants missing. -/
theorem download_status_classification_witness :
    classifyDownloadStatus (strOf "u") 503 = .failStatus (strOf "u") 503 ∧
    (downloadFileStatuses (fun _ => 404) (strOf "a_500.jpg")).1 = .ok := by
  refine ⟨?_, ?_⟩
  · exact (download_status_classification (strOf "u") 503).2.2.2.2.1
      (by decide) (by decide) (by decide) (by decide)
  · exact (download_status_classification (strOf "a_500.jpg") 503).2.2.2.2.2
      (fun _ => 404) rfl rfl


/-! ## Photo dispatch (scraper.go, scrapePost and downloadFileAsync) -/

inductive PostStepResult where
  | panicked (msg : Str)
  | ok (dispatched : List Str)
deriving DecidableEq, Repr

/-- The photo loop of `scrapePost` (scraper.go lines 445-447) combined with
`downloadFileAsync` (lines 544-554): each photo's original-size URL is handed
to `downloadFileAsync` with no emptiness check, and `downloadFileAsync`
panics with "missing url" when the URL is empty; otherwise it queues the
download.  The loop has no error return path at all. -/
def scrapePostPhotos : List Str → PostStepResult
  | [] => .ok []
  | u :: us =>
    if u = [] then .panicked (strOf "missing url")
    else
      match scrapePostPhotos us with
      | .panicked m => .panicked m
      | .ok ds => .ok (u :: ds)

/-- C10: a post whose photos list contains an entry with an empty
original-size URL makes processing panic with "missing url" rather than
return an error. -/
theorem scrapePostPhotos_empty_url_panics (photos : List Str)
    (h : ∃ u ∈ photos, u = []) :
    scrapePostPhotos photos = .panicked (strOf "missing url") := by
  induction photos with
  | nil => obtain ⟨u, hu, _⟩ := h; exact absurd hu (List.not_mem_nil u)
  | cons v vs ih =>
    by_cases hv : v = []
    · simp [scrapePostPhotos, hv]
    · obtain ⟨u, hu, hue⟩ := h
      have hmem : ∃ u ∈ vs, u = [] := by
        rcases List.mem_cons.mp hu with rfl | hin
        · exact absurd hue hv
        · exact ⟨u, hin, hue⟩
      rw [scrapePostPhotos, if_neg hv, ih hmem]

/-- Witness for C10: a post with one valid photo URL and one empty one. -/
theorem scrapePostPhotos_empty_url_panics_witness :
    scrapePostPhotos [strOf "https://a.media.tumblr.com/x.jpg", []] =
      .panicked (strOf "missing url") :=
  scrapePostPhotos_empty_url_panics [strOf "https://a.media.tumblr.com/x.jpg", []]
    ⟨[], by decide, rfl⟩

/-! ## Publish step of a download (scraper.go, downloadFileMaybe lines 637-666)

The filesystem calls of the publish step become an explicit event trace.
-/

inductive FsEvent where
  | acquireLock (path : Str)
  | openCreate (path : Str)
  | writeBody (path : Str)
  | closeFile (path : Str)
  | chtimes (path : Str) (t : Int)
  | removeFile (path : Str)
  | renameFile (src : Str) (dst : Str)
  | releaseLock (path : Str)
deriving DecidableEq, Repr

/-- The paths an event touches. -/
def eventPaths : FsEvent → List Str
  | .acquireLock p => [p]
  | .openCreate p => [p]
  | .writeBody p => [p]
  | .closeFile p => [p]
  | .chtimes p _ => [p]
  | .removeFile p => [p]
  | .renameFile s d => [s, d]
  | .releaseLock p => [p]

inductive PublishResult where
  | okPublished
  | okSkipped
  | ioError
deriving DecidableEq, Repr

/-- Publish step of `downloadFileMaybe` (scraper.go lines 637-666): acquire
the interlock on the final `path` itself (on failure return success), open
the final path with O_WRONLY|O_CREATE|O_TRUNC, stream the body into it,
close, set atime/mtime to `fileTime`.  On a copy or close error the partial
file is removed.  The `Ok` flags inject I/O errors into the open, copy,
close and chtimes calls.  There is no temporary file and no rename anywhere
in this code. -/
def publishFile (path : Str) (fileTime : Int)
    (lockFree openOk copyOk closeOk chtimesOk : Bool) :
    List FsEvent × PublishResult :=
  if !lockFree then ([], .okSkipped)
  else if !openOk then
    ([.acquireLock path, .openCreate path, .releaseLock path], .ioError)
  else if !copyOk then
    ([.acquireLock path, .openCreate path, .writeBody path, .closeFile path,
      .removeFile path, .releaseLock path], .ioError)
  else if !closeOk then
    ([.acquireLock path, .openCreate path, .writeBody path, .closeFile path,
      .removeFile path, .releaseLock path], .ioError)
  else if !chtimesOk then
    ([.acquireLock path, .openCreate path, .writeBody path, .closeFile path,
      .chtimes path fileTime, .releaseLock path], .ioError)
  else
    ([.acquireLock path, .openCreate path, .writeBody path, .closeFile path,
      .chtimes path fileTime, .releaseLock path], .okPublished)

/-- C1 counterexample: on a successful download of `a.jpg` the body is
written directly to `a.jpg`; no event ever touches `a.jpg.tmp` and no rename
occurs, contradicting the claimed temp-file-then-rename publish. -/
theorem publish_no_temp_counterexample :
    FsEvent.writeBody (strOf "a.jpg") ∈
      (publishFile (strOf "a.jpg") 7 true true true true true).1 ∧
    FsEvent.writeBody (strOf "a.jpg.tmp") ∉
      (publishFile (strOf "a.jpg") 7 true true true true true).1 ∧
    FsEvent.renameFile (strOf "a.jpg.tmp") (strOf "a.jpg") ∉
      (publishFile (strOf "a.jpg") 7 true true true true true).1 ∧
    FsEvent.acquireLock (strOf "a.jpg.tmp") ∉
      (publishFile (strOf "a.jpg") 7 true true true true true).1 := by
  decide

/-- C1 amended: the publish step acquires the file interlock on the final
path itself (returning success when it is already held), streams the
response body directly into the final path created/truncated in place, then
sets atime/mtime; on a copy or close error the partial file is removed.  No
temporary file and no rename are used, so every filesystem event of the
publish step touches exactly the final path, and the final path transiently
holds an incomplete copy while the body is being streamed. -/
theorem publish_writes_final_path_directly (path : Str) (t : Int)
    (lockFree openOk copyOk closeOk chtimesOk : Bool) :
    (∀ e ∈ (publishFile path t lockFree openOk copyOk closeOk chtimesOk).1,
      eventPaths e = [path]) ∧
    (∀ src dst, FsEvent.renameFile src dst ∉
      (publishFile path t lockFree openOk copyOk closeOk chtimesOk).1) ∧
    publishFile path t false openOk copyOk closeOk chtimesOk = ([], .okSkipped) ∧
    publishFile path t true true true true true =
      ([.acquireLock path, .openCreate path, .writeBody path, .closeFile path,
        .chtimes path t, .releaseLock path], .okPublished) := by
  refine ⟨?_, ?_, rfl, rfl⟩
  · intro e he
    cases lockFree <;> cases openOk <;> cases copyOk <;> cases closeOk <;>
      cases chtimesOk <;> simp [publishFile] at he <;>
      rcases he with rfl | rfl | rfl | rfl | rfl | rfl <;> rfl
  · intro src dst hmem
    cases lockFree <;> cases openOk <;> cases copyOk <;> cases closeOk <;>
      cases chtimesOk <;>
      simp [publishFile] at hmem


/-! ## Pagination loop (scraper.go, Scrape lines 175-240) -/

structure PagePost where
  id : Int
  ts : Int
deriving DecidableEq, Repr

structure LoopState where
  lowestID : Int
  highestID : Int
  before : Option Int
  offset : Nat
  processed : List Int
deriving DecidableEq, Repr

/-- One iteration of the inner post loop of `Scrape` (scraper.go lines
211-236), for a blog with `AllowReblogsFrom` unset so that `handleReblogs`
returns true for every post.  The running bounds and the `before` cursor are
updated first; then a post at or below the initial high-water mark ends the
whole scrape (second component `true`); otherwise the post is handed to
`scrapePost` and recorded in `processed`. -/
def scrapePostStep (initialHighestID : Int) (st : LoopState) (p : PagePost) :
    LoopState × Bool :=
  let st1 := { st with
    lowestID := if p.id < st.lowestID then p.id else st.lowestID
    highestID := if p.id > st.highestID then p.id else st.highestID
    before := match st.before with
      | none => some p.ts
      | some b => if p.ts < b then some p.ts else some b }
  if p.id ≤ initialHighestID then (st1, true)
  else ({ st1 with processed := st1.processed ++ [p.id] }, false)

/-- The inner post loop of `Scrape` over one page of posts; `true` means the
scrape ends inside this page. -/
def scrapePage (initialHighestID : Int) : LoopState → List PagePost → LoopState × Bool
  | st, [] => (st, false)
  | st, p :: ps =>
    let r := scrapePostStep initialHighestID st p
    if r.2 then r
    else scrapePage initialHighestID r.1 ps

/-- The page loop of `Scrape` (scraper.go lines 188-239): pages are consumed
in order; an empty page, or a post at or below `initialHighestID`, ends the
scrape; otherwise `offset` advances by the raw page length.  `pages` is the
sequence of post pages the endpoint returns.  No entry of a page is
discarded before processing: the code has no overlap de-duplication. -/
def scrapeLoop (initialHighestID : Int) : LoopState → List (List PagePost) → LoopState
  | st, [] => st
  | st, page :: rest =>
    if page = [] then st
    else
      let r := scrapePage initialHighestID st page
      if r.2 then r.1
      else scrapeLoop initialHighestID { r.1 with offset := r.1.offset + page.length } rest

/-- The loop state `Scrape` starts from, per `newScrapeContext`;
`initialHighestID` is recorded as `sc.highestID` before the loop. -/
def initLoopState (highestID : Int) (beforeCfg : Option Int) : LoopState :=
  { lowestID := maxInt64
    highestID := highestID
    before := beforeCfg
    offset := 0
    processed := [] }

lemma takeWhile_append_stop {α : Type} {q : α → Bool} :
    ∀ {A : List α} (B : List α), A.any (fun a => !q a) = true →
      (A ++ B).takeWhile q = A.takeWhile q := by
  intro A
  induction A with
  | nil => intro B h; simp at h
  | cons a A ih =>
    intro B h
    by_cases ha : q a = true
    · have h2 : A.any (fun a => !q a) = true := by
        simp only [List.any_cons, Bool.or_eq_true, Bool.not_eq_true'] at h
        rcases h with h | h
        · rw [ha] at h; exact absurd h (by simp)
        · simpa using h
      simp [List.takeWhile_cons, ha, ih B h2]
    · simp [List.takeWhile_cons, ha]
  
lemma takeWhile_append_all {α : Type} {q : α → Bool} :
    ∀ {A : List α} (B : List α), A.all q = true →
      (A ++ B).takeWhile q = A ++ B.takeWhile q := by
  intro A
  induction A with
  | nil => intro B _; simp
  | cons a A ih =>
    intro B h
    simp only [List.all_cons, Bool.and_eq_true] at h
    simp [List.takeWhile_cons, h.1, ih B h.2]

lemma takeWhile_all_self {α : Type} {q : α → Bool} {A : List α} (h : A.all q = true) :
    A.takeWhile q = A := by
  induction A with
  | nil => rfl
  | cons a A ih =>
    simp only [List.all_cons, Bool.and_eq_true] at h
    simp [List.takeWhile_cons, h.1, ih h.2]

lemma scrapePage_spec (initH : Int) :
    ∀ (page : List PagePost) (st : LoopState),
      (scrapePage initH st page).1.processed =
        st.processed ++ (page.map PagePost.id).takeWhile (fun i => decide (initH < i)) ∧
      (scrapePage initH st page).2 = page.any (fun p => decide (p.id ≤ initH)) := by
  intro page
  induction page with
  | nil => intro st; simp [scrapePage]
  | cons p ps ih =>
    intro st
    by_cases hp : p.id ≤ initH
    · have hnot : ¬ (initH < p.id) := not_lt.mpr hp
      constructor
      · simp [scrapePage, scrapePostStep, hp, hnot, List.takeWhile_cons]
      · simp [scrapePage, scrapePostStep, hp]
    · have hlt : initH < p.id := lt_of_not_ge hp
      have hred : scrapePage initH st (p :: ps) =
          scrapePage initH ((scrapePostStep initH st p).1) ps := by
        rw [scrapePage]
        simp [scrapePostStep, hp]
      constructor
      · rw [hred, (ih _).1]
        simp [scrapePostStep, hp, List.takeWhile_cons, hlt, List.append_assoc]
      · rw [hred, (ih _).2]
        simp [hp]

lemma scrapeLoop_processed (initH : Int) :
    ∀ (pages : List (List PagePost)) (st : LoopState),
      (scrapeLoop initH st pages).processed =
        st.processed ++
          (((pages.takeWhile (fun pg => !pg.isEmpty)).flatten.map PagePost.id).takeWhile
            (fun i => decide (initH < i))) := by
  intro pages
  induction pages with
  | nil => intro st; simp [scrapeLoop]
  | cons page rest ih =>
    intro st
    by_cases hpg : page = []
    · subst hpg
      simp [scrapeLoop]
    · have hne : (!page.isEmpty) = true := by
        simp [List.isEmpty_iff, hpg]
      have hjoin : ((page :: rest).takeWhile (fun pg => !pg.isEmpty)).flatten =
          page ++ (rest.takeWhile (fun pg => !pg.isEmpty)).flatten := by
        simp [List.takeWhile_cons, hne]
      cases hflag : (scrapePage initH st page).2 with
      | true =>
        have hany : page.any (fun p => decide (p.id ≤ initH)) = true := by
          rw [← (scrapePage_spec initH page st).2]; exact hflag
        have hstop : ((page.map PagePost.id).any
            (fun i => !(decide (initH < i)))) = true := by
          refine List.any_eq_true.mpr ?_
          obtain ⟨p, hmem, hple⟩ := List.any_eq_true.mp hany
          refine ⟨p.id, List.mem_map.mpr ⟨p, hmem, rfl⟩, ?_⟩
          simp only [Bool.not_eq_true', decide_eq_false_iff_not, not_lt]
          exact of_decide_eq_true hple
        have hred : scrapeLoop initH st (page :: rest) = (scrapePage initH st page).1 := by
          rw [scrapeLoop, if_neg hpg]
          simp [hflag]
        rw [hred, (scrapePage_spec initH page st).1, hjoin, List.map_append,
          takeWhile_append_stop _ hstop]
      | false =>
        have hall : page.all (fun p => decide (initH < p.id)) = true := by
          have hsp := (scrapePage_spec initH page st).2
          rw [hflag] at hsp
          have hnone := List.any_eq_false.mp hsp.symm
          refine List.all_eq_true.mpr ?_
          intro p hmem
          have hnp := hnone p hmem
          simp only [decide_eq_true_eq] at hnp ⊢
          exact lt_of_not_ge hnp
        have hallmap : ((page.map PagePost.id).all (fun i => decide (initH < i))) = true := by
          refine List.all_eq_true.mpr ?_
          intro i hi
          obtain ⟨p, hmem, rfl⟩ := List.mem_map.mp hi
          exact List.all_eq_true.mp hall p hmem
        have hred : scrapeLoop initH st (page :: rest) =
            scrapeLoop initH { (scrapePage initH st page).1 with
              offset := (scrapePage initH st page).1.offset + page.length } rest := by
          rw [scrapeLoop, if_neg hpg]
          simp [hflag]
        rw [hred, ih _]
        simp only
        rw [(scrapePage_spec initH page st).1, hjoin, List.map_append,
          takeWhile_append_all _ hallmap, List.append_assoc,
          takeWhile_all_self hallmap]

/-- C2 counterexample: two pages overlap on post id 10 (same timestamp as
the `before` cursor); the driver processes id 10 twice in one session, so no
overlap discarding takes place. -/
theorem scrape_overlap_counterexample :
    (scrapeLoop 0 (initLoopState 0 none)
        [[⟨10, 100⟩], [⟨10, 100⟩, ⟨5, 50⟩]]).processed = [10, 10, 5] ∧
    ¬ (List.count 10 (scrapeLoop 0 (initLoopState 0 none)
        [[⟨10, 100⟩], [⟨10, 100⟩, ⟨5, 50⟩]]).processed ≤ 1) := by
  decide

/-- C2 amended: the driver discards nothing: per session, the processed post
identifiers are exactly the identifiers of all returned pages in order, up
to the first empty page, truncated before the first post whose id is at or
below the initial high-water mark, so a post id may be processed more than
once when pages overlap. -/
theorem scrapeLoop_processes_returned_posts (initH : Int) (beforeCfg : Option Int)
    (pages : List (List PagePost)) :
    (scrapeLoop initH (initLoopState initH beforeCfg) pages).processed =
      ((pages.takeWhile (fun pg => !pg.isEmpty)).flatten.map PagePost.id).takeWhile
        (fun i => decide (initH < i)) := by
  rw [scrapeLoop_processed]
  simp [initLoopState]


/-! ## Media URL matching and dispatch (scraper.go, scrapePostBody lines 499-542)

`mediaURLRegexp = ^http.+(?:media|vtt)\.tumblr\.com/.+$` (scraper.go line 41).
In RE2 `.` matches every character except a newline, and the pattern is
anchored on both sides.  There is no avatar-skip matcher anywhere in the
source; `avatarSkipMatch` below transcribes the skip pattern
`media\.tumblr\.com/avatar_` from the specification for comparison.
-/

/-- The domain alternative `(?:media|vtt)\.tumblr\.com/` at the head of `l`;
returns the rest after it. -/
def afterMediaDomain (l : Str) : Option Str :=
  if (strOf "media.tumblr.com/").isPrefixOf l then some (l.drop 17)
  else if (strOf "vtt.tumblr.com/").isPrefixOf l then some (l.drop 15)
  else none

/-- Scan for the domain alternative preceded by at least one non-newline
character (the first `.+`) and followed by at least one character, all
non-newline, reaching the end of the string (the trailing `.+$`). -/
def mediaScan : Str → Bool
  | [] => false
  | c :: cs =>
    decide (c ≠ '\n') &&
      ((match afterMediaDomain cs with
        | some b => !b.isEmpty && b.all (fun x => decide (x ≠ '\n'))
        | none => false) ||
       mediaScan cs)

/-- `mediaURLRegexp.MatchString` (scraper.go line 41). -/
def mediaURLMatch (s : Str) : Bool :=
  (strOf "http").isPrefixOf s && mediaScan (s.drop 4)

/-- Unanchored substring search. -/
def containsSub (pat : Str) : Str → Bool
  | [] => pat.isEmpty
  | c :: cs => pat.isPrefixOf (c :: cs) || containsSub pat cs

/-- The avatar-skip matcher `media\.tumblr\.com/avatar_` named by the
specification (unanchored substring match).  Modelled from the spec: no such
matcher exists in the source. -/
def avatarSkipMatch (s : Str) : Bool :=
  containsSub (strOf "media.tumblr.com/avatar_") s

/-- Whether an HTML attribute key is inspected by `scrapePostBody`
(scraper.go lines 527-529): `href`, `src` or `data-big-photo`. -/
def isMediaAttrKey (k : Str) : Bool :=
  k == strOf "href" || k == strOf "src" || k == strOf "data-big-photo"

/-- The attribute loop of `scrapePostBody` for one HTML element node
(scraper.go lines 527-534): every inspected attribute whose value matches
`mediaURLRegexp` is handed to `downloadFileAsync`, with no further
filtering.  Returns the dispatched URLs in order. -/
def scrapeNodeAttrs : List (Str × Str) → List Str
  | [] => []
  | (k, v) :: rest =>
    if isMediaAttrKey k && mediaURLMatch v then v :: scrapeNodeAttrs rest
    else scrapeNodeAttrs rest

/-- C6 counterexample: an avatar URL matching the skip pattern
`media.tumblr.com/avatar_` also matches the media-URL pattern and is
dispatched as a download task by the attribute loop: nothing filters it
out. -/
theorem avatar_url_dispatched_counterexample :
    avatarSkipMatch (strOf "https://64.media.tumblr.com/avatar_abc_128.png") = true ∧
    mediaURLMatch (strOf "https://64.media.tumblr.com/avatar_abc_128.png") = true ∧
    scrapeNodeAttrs
        [(strOf "src", strOf "https://64.media.tumblr.com/avatar_abc_128.png")] =
      [strOf "https://64.media.tumblr.com/avatar_abc_128.png"] := by
  refine ⟨by decide, by decide, by decide⟩

/-- C6 amended: the post parser applies no avatar filtering: the dispatched
URLs of a node are exactly the values of its `href`/`src`/`data-big-photo`
attributes that match the media-URL pattern, and in particular an avatar URL
matching the skip pattern of the specification is dispatched. -/
theorem scrapeNodeAttrs_no_avatar_filter :
    (∀ attrs : List (Str × Str),
      scrapeNodeAttrs attrs =
        (attrs.filter (fun kv => isMediaAttrKey kv.1 && mediaURLMatch kv.2)).map
          Prod.snd) ∧
    scrapeNodeAttrs
        [(strOf "src", strOf "https://64.media.tumblr.com/avatar_x.png")] =
      [strOf "https://64.media.tumblr.com/avatar_x.png"] := by
  constructor
  · intro attrs
    induction attrs with
    | nil => rfl
    | cons kv rest ih =>
      obtain ⟨k, v⟩ := kv
      by_cases h : (isMediaAttrKey k && mediaURLMatch v) = true
      · simp [scrapeNodeAttrs, List.filter_cons, h, ih]
      · simp [scrapeNodeAttrs, List.filter_cons, h, ih]
  · decide


/-! ## Priority semaphore (semaphore/basic.go, PrioritySemaphore)

The mutex-guarded state becomes an explicit state record, goroutines become
numeric identifiers, and the wait heap becomes a list popped at a maximal
priority: `container/heap` with `Less i j = priority i > priority j` pops
some waiter of maximal priority; the Go heap's order among equal priorities
is unspecified and no claim depends on it, so the model pops the leftmost
maximal waiter.
-/

/-- A queued or admitted caller: its identifier and the priority it passed
to `Acquire`. -/
structure Waiter where
  tid : Nat
  priority : Int
deriving DecidableEq, Repr

structure SemState where
  capacity : Nat
  allocated : Nat
  waiters : List Waiter
  holders : List Waiter
deriving DecidableEq, Repr

/-- Pop a waiter of maximal priority (the leftmost among ties). -/
def popMax : List Waiter → Option (Waiter × List Waiter)
  | [] => none
  | w :: ws =>
    match popMax ws with
    | none => some (w, [])
    | some (m, rest) =>
      if m.priority > w.priority then some (m, w :: rest) else some (w, ws)

lemma popMax_cons_isSome (a : Waiter) (ws : List Waiter) : (popMax (a :: ws)).isSome := by
  rw [popMax]
  cases popMax ws with
  | none => rfl
  | some mr =>
    obtain ⟨m, r⟩ := mr
    by_cases h : m.priority > a.priority <;> simp [h]

lemma popMax_eq_none {ws : List Waiter} (h : popMax ws = none) : ws = [] := by
  cases ws with
  | nil => rfl
  | cons a ws =>
    have := popMax_cons_isSome a ws
    rw [h] at this
    exact absurd this (by simp)

lemma popMax_length : ∀ {ws : List Waiter} {w : Waiter} {rest : List Waiter},
    popMax ws = some (w, rest) → rest.length < ws.length := by
  intro ws
  induction ws with
  | nil => intro w rest h; exact absurd h (by simp [popMax])
  | cons a ws ih =>
    intro w rest h
    rw [popMax] at h
    cases hp : popMax ws with
    | none =>
      rw [hp] at h
      dsimp only at h
      obtain ⟨rfl, rfl⟩ : a = w ∧ [] = rest := by
        constructor <;> injection h with h1 <;> cases h1 <;> rfl
      simp
    | some mr =>
      obtain ⟨m, r⟩ := mr
      rw [hp] at h
      dsimp only at h
      by_cases hgt : m.priority > a.priority
      · rw [if_pos hgt] at h
        obtain ⟨rfl, rfl⟩ : m = w ∧ a :: r = rest := by
          constructor <;> injection h with h1 <;> cases h1 <;> rfl
        have := ih hp
        simpa using this
      · rw [if_neg hgt] at h
        obtain ⟨rfl, rfl⟩ : a = w ∧ ws = rest := by
          constructor <;> injection h with h1 <;> cases h1 <;> rfl
        simp

lemma popMax_mem : ∀ {ws : List Waiter} {w : Waiter} {rest : List Waiter},
    popMax ws = some (w, rest) → w ∈ ws := by
  intro ws
  induction ws with
  | nil => intro w rest h; exact absurd h (by simp [popMax])
  | cons a ws ih =>
    intro w rest h
    rw [popMax] at h
    cases hp : popMax ws with
    | none =>
      rw [hp] at h
      dsimp only at h
      obtain rfl : a = w := by injection h with h1; cases h1; rfl
      exact List.mem_cons_self a ws
    | some mr =>
      obtain ⟨m, r⟩ := mr
      rw [hp] at h
      dsimp only at h
      by_cases hgt : m.priority > a.priority
      · rw [if_pos hgt] at h
        obtain rfl : m = w := by injection h with h1; cases h1; rfl
        exact List.mem_cons_of_mem a (ih hp)
      · rw [if_neg hgt] at h
        obtain rfl : a = w := by injection h with h1; cases h1; rfl
        exact List.mem_cons_self a ws

lemma popMax_subset : ∀ {ws : List Waiter} {w : Waiter} {rest : List Waiter},
    popMax ws = some (w, rest) → ∀ x ∈ rest, x ∈ ws := by
  intro ws
  induction ws with
  | nil => intro w rest h; exact absurd h (by simp [popMax])
  | cons a ws ih =>
    intro w rest h
    rw [popMax] at h
    cases hp : popMax ws with
    | none =>
      rw [hp] at h
      dsimp only at h
      obtain rfl : [] = rest := by injection h with h1; cases h1; rfl
      intro x hx
      exact absurd hx (List.not_mem_nil x)
    | some mr =>
      obtain ⟨m, r⟩ := mr
      rw [hp] at h
      dsimp only at h
      by_cases hgt : m.priority > a.priority
      · rw [if_pos hgt] at h
        obtain rfl : a :: r = rest := by injection h with h1; cases h1; rfl
        intro x hx
        rcases List.mem_cons.mp hx with rfl | hx
        · exact List.mem_cons_self x ws
        · exact List.mem_cons_of_mem a (ih hp x hx)
      · rw [if_neg hgt] at h
        obtain rfl : ws = rest := by injection h with h1; cases h1; rfl
        intro x hx
        exact List.mem_cons_of_mem a hx

lemma popMax_max : ∀ {ws : List Waiter} {w : Waiter} {rest : List Waiter},
    popMax ws = some (w, rest) → ∀ x ∈ ws, x.priority ≤ w.priority := by
  intro ws
  induction ws with
  | nil => intro w rest h; exact absurd h (by simp [popMax])
  | cons a ws ih =>
    intro w rest h
    rw [popMax] at h
    cases hp : popMax ws with
    | none =>
      rw [hp] at h
      dsimp only at h
      obtain rfl : a = w := by injection h with h1; cases h1; rfl
      intro x hx
      rcases List.mem_cons.mp hx with rfl | hx
      · exact le_refl _
      · rw [popMax_eq_none hp] at hx
        exact absurd hx (List.not_mem_nil x)
    | some mr =>
      obtain ⟨m, r⟩ := mr
      rw [hp] at h
      dsimp only at h
      by_cases hgt : m.priority > a.priority
      · rw [if_pos hgt] at h
        obtain rfl : m = w := by injection h with h1; cases h1; rfl
        intro x hx
        rcases List.mem_cons.mp hx with rfl | hx
        · exact le_of_lt hgt
        · exact ih hp x hx
      · rw [if_neg hgt] at h
        obtain rfl : a = w := by injection h with h1; cases h1; rfl
        intro x hx
        rcases List.mem_cons.mp hx with rfl | hx
        · exact le_refl _
        · exact le_trans (ih hp x hx) (not_lt.mp hgt)

/-- The wake loop of `Release` (semaphore/basic.go lines 76-80), with a fuel
argument for structural recursion: while capacity remains and waiters are
queued, pop a maximal-priority waiter, admit it (append to `hs`) and
increment the allocation.  Each pop shrinks the queue by one, so fuel
`ws.length` never runs out; the fuel-exhausted case is unreachable from
`wakeLoop`. -/
def wakeLoopAux (capacity : Nat) :
    Nat → Nat → List Waiter → List Waiter → Nat × List Waiter × List Waiter
  | 0, alloc, ws, hs => (alloc, ws, hs)
  | fuel + 1, alloc, ws, hs =>
    if alloc < capacity then
      match popMax ws with
      | none => (alloc, ws, hs)
      | some (w, rest) => wakeLoopAux capacity fuel (alloc + 1) rest (hs ++ [w])
    else (alloc, ws, hs)

/-- The wake loop of `Release`, entered with sufficient fuel. -/
def wakeLoop (capacity allocated : Nat) (ws hs : List Waiter) :
    Nat × List Waiter × List Waiter :=
  wakeLoopAux capacity ws.length allocated ws hs


lemma wakeLoopAux_spec (cap : Nat) :
    ∀ (fuel : Nat) (ws : List Waiter), ws.length ≤ fuel →
    ∀ (alloc : Nat) (hs : List Waiter),
      ∃ (woken : List Waiter) (rem : List Waiter),
        wakeLoopAux cap fuel alloc ws hs = (alloc + woken.length, rem, hs ++ woken) ∧
        (∀ w ∈ woken, w ∈ ws) ∧
        (∀ v ∈ rem, v ∈ ws) ∧
        woken.Pairwise (fun a b => b.priority ≤ a.priority) ∧
        (∀ w ∈ woken, ∀ v ∈ rem, v.priority ≤ w.priority) ∧
        (∀ w, woken.head? = some w → ∀ v ∈ ws, v.priority ≤ w.priority) ∧
        (alloc ≤ cap → alloc + woken.length ≤ cap) := by
  intro fuel
  induction fuel with
  | zero =>
    intro ws hws alloc hs
    have hnil : ws = [] := List.length_eq_zero.mp (Nat.le_zero.mp hws)
    subst hnil
    refine ⟨[], [], by simp [wakeLoopAux], by simp, by simp, List.Pairwise.nil,
      by simp, by simp, ?_⟩
    intro h
    simp only [List.length_nil, Nat.add_zero]
    exact h
  | succ fuel ih =>
    intro ws hws alloc hs
    by_cases hlt : alloc < cap
    · cases hpop : popMax ws with
      | none =>
        have hnil : ws = [] := popMax_eq_none hpop
        subst hnil
        refine ⟨[], [], by simp [wakeLoopAux, hlt, popMax], by simp, by simp,
          List.Pairwise.nil, by simp, by simp, ?_⟩
        intro h
        simp only [List.length_nil, Nat.add_zero]
        exact h
      | some wr =>
        obtain ⟨w, rest⟩ := wr
        have hrest : rest.length ≤ fuel :=
          Nat.lt_succ_iff.mp (Nat.lt_of_lt_of_le (popMax_length hpop) hws)
        obtain ⟨woken, rem, heq, hmemw, hmemr, hpair, hdom, hhead, hcap⟩ :=
          ih rest hrest (alloc + 1) (hs ++ [w])
        have hred : wakeLoopAux cap (fuel + 1) alloc ws hs =
            wakeLoopAux cap fuel (alloc + 1) rest (hs ++ [w]) := by
          rw [wakeLoopAux, if_pos hlt, hpop]
        refine ⟨w :: woken, rem, ?_, ?_, ?_, ?_, ?_, ?_, ?_⟩
        · rw [hred, heq]
          have harith : alloc + 1 + woken.length = alloc + (w :: woken).length := by
            simp only [List.length_cons]
            omega
          rw [harith]
          simp [List.append_assoc]
        · intro x hx
          rcases List.mem_cons.mp hx with rfl | hx
          · exact popMax_mem hpop
          · exact popMax_subset hpop x (hmemw x hx)
        · intro v hv
          exact popMax_subset hpop v (hmemr v hv)
        · refine List.pairwise_cons.mpr ⟨?_, hpair⟩
          intro x hx
          exact popMax_max hpop x (popMax_subset hpop x (hmemw x hx))
        · intro x hx v hv
          rcases List.mem_cons.mp hx with rfl | hx
          · exact popMax_max hpop v (popMax_subset hpop v (hmemr v hv))
          · exact hdom x hx v hv
        · intro x hx v hv
          obtain rfl : w = x := by injection hx
          exact popMax_max hpop v hv
        · intro halloc
          have h2 := hcap (Nat.succ_le_of_lt hlt)
          simp only [List.length_cons]
          omega
    · refine ⟨[], ws, by simp [wakeLoopAux, hlt], by simp,
        fun v hv => hv, List.Pairwise.nil, by simp, by simp, ?_⟩
      intro h
      simp only [List.length_nil, Nat.add_zero]
      exact h

lemma wakeLoop_spec (cap alloc : Nat) (ws hs : List Waiter) :
    ∃ (woken : List Waiter) (rem : List Waiter),
      wakeLoop cap alloc ws hs = (alloc + woken.length, rem, hs ++ woken) ∧
      (∀ w ∈ woken, w ∈ ws) ∧
      (∀ v ∈ rem, v ∈ ws) ∧
      woken.Pairwise (fun a b => b.priority ≤ a.priority) ∧
      (∀ w ∈ woken, ∀ v ∈ rem, v.priority ≤ w.priority) ∧
      (∀ w, woken.head? = some w → ∀ v ∈ ws, v.priority ≤ w.priority) ∧
      (alloc ≤ cap → alloc + woken.length ≤ cap) :=
  wakeLoopAux_spec cap ws.length ws (Nat.le_refl _) alloc hs

/-- Events of the semaphore: `Acquire(priority)` and `Release()`, tagged
with the identifier of the calling goroutine. -/
inductive SemEvent where
  | acquire (tid : Nat) (priority : Int)
  | release (tid : Nat)
deriving DecidableEq, Repr

/-- Whether a waiter record belongs to the goroutine `tid`. -/
def holdsTid (tid : Nat) (w : Waiter) : Bool := w.tid == tid

/-- One semaphore operation (semaphore/basic.go lines 54-83).  `Acquire`
admits immediately when the allocation is below capacity, otherwise
enqueues the caller; `Release` removes the caller from the holders,
decrements the allocation and runs the wake loop.  `none` marks an event
sequence that is not a balanced call sequence (an acquire by a goroutine
already holding or waiting, or a release by one not holding), which cannot
occur in the Go program where every `Release` is deferred by an
`Acquire`. -/
def stepSem (s : SemState) : SemEvent → Option SemState
  | .acquire tid p =>
    if s.holders.any (holdsTid tid) || s.waiters.any (holdsTid tid) then none
    else if s.allocated < s.capacity then
      some { s with allocated := s.allocated + 1, holders := s.holders ++ [⟨tid, p⟩] }
    else
      some { s with waiters := s.waiters ++ [⟨tid, p⟩] }
  | .release tid =>
    if s.holders.any (holdsTid tid) then
      let r := wakeLoop s.capacity (s.allocated - 1) s.waiters
        (s.holders.eraseP (holdsTid tid))
      some { s with allocated := r.1, waiters := r.2.1, holders := r.2.2 }
    else none

/-- The state of a fresh `NewPrioritySemaphore(capacity)`. -/
def initSem (capacity : Nat) : SemState :=
  { capacity := capacity, allocated := 0, waiters := [], holders := [] }

/-- Run a sequence of semaphore events. -/
def runSem (s : SemState) : List SemEvent → Option SemState
  | [] => some s
  | e :: es =>
    match stepSem s e with
    | none => none
    | some s1 => runSem s1 es

/-- The semaphore invariant: the allocation counts the current holders and
never exceeds the capacity. -/
def SemInv (s : SemState) : Prop :=
  s.allocated = s.holders.length ∧ s.allocated ≤ s.capacity

lemma length_eraseP_any {p : Waiter → Bool} :
    ∀ {l : List Waiter}, l.any p = true → (l.eraseP p).length + 1 = l.length := by
  intro l
  induction l with
  | nil => intro h; simp at h
  | cons a l ih =>
    intro h
    by_cases ha : p a = true
    · simp [List.eraseP_cons, ha]
    · have h2 : l.any p = true := by
        simp only [List.any_cons, Bool.or_eq_true] at h
        rcases h with h | h
        · exact absurd h ha
        · exact h
      simp only [List.eraseP_cons, ha, cond_false, List.length_cons]
      rw [ih h2]

lemma stepSem_inv {s s1 : SemState} {e : SemEvent} (hinv : SemInv s)
    (hstep : stepSem s e = some s1) : SemInv s1 ∧ s1.capacity = s.capacity := by
  obtain ⟨hlen, hcap⟩ := hinv
  cases e with
  | acquire tid p =>
    rw [stepSem] at hstep
    split at hstep
    · exact absurd hstep (by simp)
    · split at hstep
      · rename_i hlt
        obtain rfl : _ = s1 := by injection hstep
        refine ⟨⟨by simp [hlen], Nat.succ_le_of_lt hlt⟩, rfl⟩
      · obtain rfl : _ = s1 := by injection hstep
        exact ⟨⟨by simp [hlen], hcap⟩, rfl⟩
  | release tid =>
    rw [stepSem] at hstep
    split at hstep
    · rename_i hany
      obtain rfl : _ = s1 := by injection hstep
      obtain ⟨woken, rem, heq, -, -, -, -, -, hbound⟩ :=
        wakeLoop_spec s.capacity (s.allocated - 1) s.waiters
          (s.holders.eraseP (holdsTid tid))
      have hpos : 1 ≤ s.allocated := by
        have := length_eraseP_any hany
        omega
      have hlen2 : (s.holders.eraseP (holdsTid tid)).length = s.allocated - 1 := by
        have := length_eraseP_any hany
        omega
      constructor
      · constructor
        · simp only [heq]
          simp [List.length_append, hlen2]
        · simp only [heq]
          exact hbound (by omega)
      · rfl
    · exact absurd hstep (by simp)

lemma runSem_inv : ∀ {events : List SemEvent} {s s1 : SemState}, SemInv s →
    runSem s events = some s1 → SemInv s1 ∧ s1.capacity = s.capacity := by
  intro events
  induction events with
  | nil =>
    intro s s1 hinv hrun
    obtain rfl : s = s1 := by
      rw [runSem] at hrun
      injection hrun
    exact ⟨hinv, rfl⟩
  | cons e es ih =>
    intro s s1 hinv hrun
    rw [runSem] at hrun
    cases hstep : stepSem s e with
    | none => rw [hstep] at hrun; exact absurd hrun (by simp)
    | some s2 =>
      rw [hstep] at hrun
      obtain ⟨hinv2, hcap2⟩ := stepSem_inv hinv hstep
      obtain ⟨hinv1, hcap1⟩ := ih hinv2 hrun
      exact ⟨hinv1, hcap1.trans hcap2⟩

/-- C7: for every balanced event sequence on a semaphore of capacity `cap`,
the holders never exceed `cap`; and an acquire that finds the allocation
below capacity is admitted immediately, while one that finds it full is
enqueued. -/
theorem semaphore_capacity_and_admission (cap : Nat) (_hpositive : 0 < cap)
    (events : List SemEvent) (sFinal : SemState)
    (hrun : runSem (initSem cap) events = some sFinal) :
    sFinal.holders.length ≤ cap ∧
    (∀ (s s1 : SemState) (tid : Nat) (p : Int),
      stepSem s (.acquire tid p) = some s1 →
      (s.allocated < s.capacity →
        s1.holders = s.holders ++ [⟨tid, p⟩] ∧ s1.waiters = s.waiters) ∧
      (¬ s.allocated < s.capacity →
        s1.waiters = s.waiters ++ [⟨tid, p⟩] ∧ s1.holders = s.holders)) := by
  constructor
  · have hinv0 : SemInv (initSem cap) := ⟨rfl, Nat.zero_le _⟩
    obtain ⟨⟨hlen, hle⟩, hcapeq⟩ := runSem_inv hinv0 hrun
    rw [← hlen]
    rw [hcapeq] at hle
    exact hle
  · intro s s1 tid p hstep
    rw [stepSem] at hstep
    split at hstep
    · exact absurd hstep (by simp)
    · constructor
      · intro hlt
        rw [if_pos hlt] at hstep
        obtain rfl : _ = s1 := by injection hstep
        exact ⟨rfl, rfl⟩
      · intro hlt
        rw [if_neg hlt] at hstep
        obtain rfl : _ = s1 := by injection hstep
        exact ⟨rfl, rfl⟩

/-- Witness for C7: capacity 1, one holder, one enqueued acquire, one
release; the final state holds one admitted caller. -/
theorem semaphore_capacity_and_admission_witness :
    (SemState.mk 1 1 [] [⟨1, 3⟩]).holders.length ≤ 1 ∧
    (∀ (s s1 : SemState) (tid : Nat) (p : Int),
      stepSem s (.acquire tid p) = some s1 →
      (s.allocated < s.capacity →
        s1.holders = s.holders ++ [⟨tid, p⟩] ∧ s1.waiters = s.waiters) ∧
      (¬ s.allocated < s.capacity →
        s1.waiters = s.waiters ++ [⟨tid, p⟩] ∧ s1.holders = s.holders)) :=
  semaphore_capacity_and_admission 1 (by decide)
    [.acquire 0 5, .acquire 1 3, .release 0]
    (SemState.mk 1 1 [] [⟨1, 3⟩]) (by rfl)

/-- C8: whenever a release is applied, the woken waiters extend the holders
in non-increasing priority order (so the pending waiter of greatest
priority is woken first), every woken waiter came from the wait queue, and
every waiter still pending has priority at most that of every waiter woken
by this release: a waiter is never woken while a strictly
higher-priority waiter stays pending. -/
theorem semaphore_priority_wake_order (s : SemState) (tid : Nat) (s1 : SemState)
    (hstep : stepSem s (.release tid) = some s1) :
    ∃ woken : List Waiter,
      s1.holders = s.holders.eraseP (holdsTid tid) ++ woken ∧
      (∀ w ∈ woken, w ∈ s.waiters) ∧
      woken.Pairwise (fun a b => b.priority ≤ a.priority) ∧
      (∀ w ∈ woken, ∀ v ∈ s1.waiters, v.priority ≤ w.priority) ∧
      (∀ w, woken.head? = some w → ∀ v ∈ s.waiters, v.priority ≤ w.priority) := by
  rw [stepSem] at hstep
  split at hstep
  · obtain rfl : _ = s1 := by injection hstep
    obtain ⟨woken, rem, heq, hmemw, -, hpair, hdom, hhead, -⟩ :=
      wakeLoop_spec s.capacity (s.allocated - 1) s.waiters
        (s.holders.eraseP (holdsTid tid))
    refine ⟨woken, ?_, hmemw, hpair, ?_, hhead⟩
    · simp only [heq]
    · intro w hw v hv
      refine hdom w hw v ?_
      simpa only [heq] using hv
  · exact absurd hstep (by simp)

/-- Witness for C8: capacity 1, holder releases while waiters of priority 1
and 9 are pending; the priority-9 waiter is woken, the priority-1 waiter
stays queued. -/
theorem semaphore_priority_wake_order_witness :
    ∃ woken : List Waiter,
      (SemState.mk 1 1 [⟨1, 1⟩] [⟨2, 9⟩]).holders =
        (SemState.mk 1 1 [⟨1, 1⟩, ⟨2, 9⟩] [⟨0, 5⟩]).holders.eraseP (holdsTid 0) ++
          woken ∧
      (∀ w ∈ woken, w ∈ (SemState.mk 1 1 [⟨1, 1⟩, ⟨2, 9⟩] [⟨0, 5⟩]).waiters) ∧
      woken.Pairwise (fun a b => b.priority ≤ a.priority) ∧
      (∀ w ∈ woken, ∀ v ∈ (SemState.mk 1 1 [⟨1, 1⟩] [⟨2, 9⟩]).waiters,
        v.priority ≤ w.priority) ∧
      (∀ w, woken.head? = some w →
        ∀ v ∈ (SemState.mk 1 1 [⟨1, 1⟩, ⟨2, 9⟩] [⟨0, 5⟩]).waiters,
          v.priority ≤ w.priority) :=
  semaphore_priority_wake_order (SemState.mk 1 1 [⟨1, 1⟩, ⟨2, 9⟩] [⟨0, 5⟩]) 0
    (SemState.mk 1 1 [⟨1, 1⟩] [⟨2, 9⟩]) (by rfl)

end TumblrScraper
